import Mathlib

/-!
Verification of the bounded single-producer/single-consumer ring structures
of this repository: the generic index-based ring of
`include/linux/core_ring.h` and the packet-specialized `skb_ring`
(`linux/skb_ring.h` header together with the `skb_ring_*` functions of
`net/vhost-user.c`).

The embedding is sequential: the spinlock wrappers (`core_ring_produce`,
`core_ring_produce_irq`, ..., and the lock acquisitions inside the
`skb_ring_*` functions) all run the identical critical section, so each
operation is modelled once as a pure state transformer.  Machine integers
are modelled as `Nat`; the `unsigned long` subtraction inside the
`CIRC_CNT`/`CIRC_SPACE` macros is modelled with an explicit `% 2 ^ 64`.

The generic ring addresses its slots through a function table
(`seek_fn` / `valid_fn` / `zero_fn` / `copy_fn`).  The embedding
instantiates that table with the canonical pointer-ring layout: a slot
holds an optional element, a slot is valid iff it holds an element,
zeroing a slot empties it, and copy moves the element.  Two transcription
defects in the header (`__core_ring_produce` writes the free variable
`producer` for `r->producer`, and `copy_fn` is declared with two
parameters but invoked with three) are resolved to the evidently intended
field access, as the repository's own design notes direct.
-/

/-- Errno `ENOSPC` from `asm/errno.h`; `__core_ring_produce` returns `-ENOSPC`. -/
def ENOSPC : Int := 28

/-- Errno `EFAULT`; `skb_ring_queue` returns `-EFAULT` when there is no space. -/
def EFAULT : Int := 14

/-- Errno `ENOMEM`; `skb_ring_init` returns `-ENOMEM` when allocation fails. -/
def ENOMEM : Int := 12

/-- Constant `VLAN_HLEN` from `linux/if_vlan.h`: the 4-byte VLAN encapsulation
overhead that `skb_ring_queue` adds to the cached length when a VLAN tag
is present. -/
def VLAN_HLEN : Nat := 4

/-- The state of `struct core_ring`: producer index, consumer index, capacity, and the
slot storage reached through the function table.  A slot is an
`Option α`: `some x` is a valid (occupied) slot, `none` an invalid one,
matching the canonical pointer-ring instantiation where validity is a
non-NULL stored pointer. -/
structure core_ring (α : Type) where
  producer : Nat
  consumer : Nat
  size : Nat
  slots : List (Option α)
deriving DecidableEq

/-- Callback `r->valid_fn(r, i)` under the canonical instantiation: the slot at
index `i` holds an element.  Out-of-range indices read as invalid. -/
def valid_fn {α : Type} (r : core_ring α) (i : Nat) : Bool :=
  (r.slots.getD i none).isSome

/-- Function `__core_ring_produce`: fail with `-ENOSPC` if the ring has zero size
or the producer-index slot is still valid; otherwise copy the element in,
advance the producer index and wrap it to 0 at the capacity. -/
def __core_ring_produce {α : Type} (r : core_ring α) (x : α) : Int × core_ring α :=
  if r.size == 0 || valid_fn r r.producer then
    (-ENOSPC, r)
  else
    let slots := r.slots.set r.producer (some x)
    let p := r.producer + 1
    (0, { r with slots := slots, producer := if p ≥ r.size then 0 else p })

/-- Function `__core_ring_discard_one`: zero the consumer-index slot, advance the
consumer index and wrap it to 0 at the capacity. -/
def __core_ring_discard_one {α : Type} (r : core_ring α) : core_ring α :=
  let slots := r.slots.set r.consumer none
  let c := r.consumer + 1
  { r with slots := slots, consumer := if c ≥ r.size then 0 else c }

/-- Function `__core_ring_consume`: if the consumer-index slot is valid, copy its
contents out, discard the slot and return the element; otherwise return
nothing and leave the ring unchanged. -/
def __core_ring_consume {α : Type} (r : core_ring α) : Option α × core_ring α :=
  if valid_fn r r.consumer then
    (r.slots.getD r.consumer none, __core_ring_discard_one r)
  else
    (none, r)

/-- Function `__core_ring_consume_batched`: repeat the single consume step up to
`n` times, stopping the first time it returns nothing; the result list
length is the `i` the C function returns. -/
def __core_ring_consume_batched {α : Type} (r : core_ring α) (n : Nat) :
    List α × core_ring α :=
  match n with
  | 0 => ([], r)
  | n + 1 =>
    match __core_ring_consume r with
    | (some x, r1) =>
      let rest := __core_ring_consume_batched r1 n
      (x :: rest.1, rest.2)
    | (none, r1) => ([], r1)

/-- Function `__core_ring_empty`: the consumer-index slot is not valid. -/
def __core_ring_empty {α : Type} (r : core_ring α) : Bool :=
  !(valid_fn r r.consumer)

/-- Function `core_ring_init`: set the size, zero both indices, initialize both
locks, and return 0.  The C function performs no allocation and no
validation of `size`; the caller-provided slot storage is modelled as the
all-invalid array the canonical instantiation starts from. -/
def core_ring_init (α : Type) (size : Nat) : Int × core_ring α :=
  (0, { producer := 0, consumer := 0, size := size,
        slots := List.replicate size none })

example : (__core_ring_produce ((core_ring_init Nat 2).2) 5).1 = 0 := by decide

example :
    (__core_ring_produce ((core_ring_init Nat 2).2) 5).2 =
      ⟨1, 0, 2, [some 5, none]⟩ := by decide

example : __core_ring_produce (⟨0, 0, 0, []⟩ : core_ring Nat) 5 =
    (-ENOSPC, ⟨0, 0, 0, []⟩) := by decide

example : (__core_ring_consume (⟨1, 0, 2, [some 5, none]⟩ : core_ring Nat)) =
    (some 5, ⟨1, 1, 2, [none, none]⟩) := by decide

/-- Reading a slot just written. -/
theorem getD_set_self {α : Type} (l : List α) (i : Nat) (a d : α)
    (h : i < l.length) : (l.set i a).getD i d = a := by
  simp [List.getD, List.getElem?_set_self, h]

/-- Reading a slot other than the one written. -/
theorem getD_set_ne {α : Type} (l : List α) (i j : Nat) (a d : α)
    (h : i ≠ j) : (l.set i a).getD j d = l.getD j d := by
  simp [List.getD, List.getElem?_set_ne, h]

/-- The map `i ↦ (c + i) % s` is injective below `s`. -/
theorem window_index_inj {c i len s : Nat} (hi : i < s) (hl : len < s)
    (hne : i ≠ len) : (c + i) % s ≠ (c + len) % s := by
  intro h
  have h2 := Nat.ModEq.add_left_cancel' c (show c + i ≡ c + len [MOD s] from h)
  rw [Nat.ModEq, Nat.mod_eq_of_lt hi, Nat.mod_eq_of_lt hl] at h2
  exact hne h2

/-- Abstraction relation for the generic ring: the state `r` represents
the FIFO queue `q` (oldest element first).  The occupied slots are exactly
the window of `q.length` consecutive indices starting at the consumer
index (modulo the capacity), the producer index sits just past that
window, and every slot outside the window is invalid. -/
def core_reps {α : Type} (r : core_ring α) (q : List α) : Prop :=
  r.slots.length = r.size ∧
  q.length ≤ r.size ∧
  (r.size = 0 → r.producer = 0 ∧ r.consumer = 0) ∧
  (0 < r.size → r.consumer < r.size ∧
    r.producer = (r.consumer + q.length) % r.size) ∧
  (∀ i x, q[i]? = some x →
    r.slots.getD ((r.consumer + i) % r.size) none = some x) ∧
  (∀ j, j < r.size → (∀ i, i < q.length → (r.consumer + i) % r.size ≠ j) →
    r.slots.getD j none = none)

/-- A freshly initialized ring represents the empty queue. -/
theorem core_init_reps (α : Type) (size : Nat) :
    core_reps (core_ring_init α size).2 [] := by
  refine ⟨by simp [core_ring_init], by simp [core_ring_init],
    fun _ => ⟨rfl, rfl⟩, fun h => ⟨h, by simp [core_ring_init, Nat.mod_eq_of_lt h]⟩,
    fun i x hix => by simp at hix, fun j hj _ => ?_⟩
  simp only [core_ring_init] at hj ⊢
  simp [List.getD, List.getElem?_replicate, hj]

/-- Wrap-at-capacity equals addition modulo the capacity on in-range
indices. -/
theorem wrap_eq_mod {p s : Nat} (hp : p < s) :
    (if p + 1 ≥ s then 0 else p + 1) = (p + 1) % s := by
  rcases Nat.lt_or_ge (p + 1) s with h | h
  · rw [if_neg (by omega), Nat.mod_eq_of_lt h]
  · have : p + 1 = s := by omega
    rw [if_pos (by omega), this, Nat.mod_self]

/-- Produce step, ring not full: the element is appended to the abstract
queue and the call reports success. -/
theorem core_produce_ok {α : Type} {r : core_ring α} {q : List α} (x : α)
    (h : core_reps r q) (hlt : q.length < r.size) :
    (__core_ring_produce r x).1 = 0 ∧
    core_reps (__core_ring_produce r x).2 (q ++ [x]) := by
  obtain ⟨hlen, hle, hz, hpos, hwin, hemp⟩ := h
  have hs : 0 < r.size := Nat.lt_of_le_of_lt (Nat.zero_le _) hlt
  obtain ⟨hc, hp⟩ := hpos hs
  have hpb : r.producer < r.size := hp ▸ Nat.mod_lt _ hs
  have hnone : r.slots.getD r.producer none = none := by
    refine hemp _ hpb fun i hi => ?_
    rw [hp]
    exact window_index_inj (Nat.lt_trans hi hlt) hlt (Nat.ne_of_lt hi)
  have hpv : valid_fn r r.producer = false := by
    unfold valid_fn
    rw [hnone]
    rfl
  have hcond : (r.size == 0 || valid_fn r r.producer) = false := by
    simp only [hpv, Bool.or_false, beq_eq_false_iff_ne, ne_eq]
    omega
  have hres : __core_ring_produce r x =
      (0, { r with slots := r.slots.set r.producer (some x),
                   producer := if r.producer + 1 ≥ r.size then 0 else r.producer + 1 }) := by
    unfold __core_ring_produce
    rw [hcond]
    rfl
  rw [hres]
  have hlapp : (q ++ [x]).length = q.length + 1 := by
    simp
  refine ⟨rfl, by simpa using hlen, by show (q ++ [x]).length ≤ r.size; omega,
    fun h0 => absurd (show r.size = 0 from h0) (by omega),
    fun _ => ⟨hc, ?_⟩, fun i y hiy => ?_, fun j hj hout => ?_⟩
  · show (if r.producer + 1 ≥ r.size then 0 else r.producer + 1) =
      (r.consumer + (q ++ [x]).length) % r.size
    rw [wrap_eq_mod hpb, hp, Nat.mod_add_mod, hlapp, ← Nat.add_assoc]
  · show (r.slots.set r.producer (some x)).getD ((r.consumer + i) % r.size) none = some y
    rcases Nat.lt_trichotomy i q.length with hi | hi | hi
    · rw [List.getElem?_append_left hi] at hiy
      rw [getD_set_ne _ _ _ _ _
        (hp ▸ (window_index_inj (Nat.lt_trans hi hlt) hlt (Nat.ne_of_lt hi)).symm)]
      exact hwin i y hiy
    · subst hi
      rw [List.getElem?_concat_length] at hiy
      rw [← hp, getD_set_self _ _ _ _ (hlen ▸ hpb)]
      exact hiy
    · rw [List.getElem?_eq_none_iff.mpr (by omega)] at hiy
      exact absurd hiy (by simp)
  · show (r.slots.set r.producer (some x)).getD j none = none
    have hjp : r.producer ≠ j := by
      have := hout q.length (by omega)
      rw [hp] at this ⊢
      exact this
    rw [getD_set_ne _ _ _ _ _ hjp]
    exact hemp j hj fun i hi => hout i (by omega)

/-- Produce step, ring full (the queue already holds `size` elements, in
particular always when the size is zero): the call reports `-ENOSPC` and
the state is returned unchanged. -/
theorem core_produce_full {α : Type} {r : core_ring α} {q : List α} (x : α)
    (h : core_reps r q) (hfull : q.length = r.size) :
    __core_ring_produce r x = (-ENOSPC, r) := by
  obtain ⟨hlen, hle, hz, hpos, hwin, hemp⟩ := h
  rcases Nat.eq_zero_or_pos r.size with hs | hs
  · have hcond : (r.size == 0 || valid_fn r r.producer) = true := by
      simp [hs]
    unfold __core_ring_produce
    rw [hcond]
    rfl
  · obtain ⟨hc, hp⟩ := hpos hs
    have hq : 0 < q.length := hfull ▸ hs
    obtain ⟨y, h0⟩ : ∃ y, q[0]? = some y := ⟨_, List.getElem?_eq_getElem hq⟩
    have hslot : r.slots.getD r.producer none = some y := by
      have hw := hwin 0 _ h0
      rw [hp, hfull]
      simpa [Nat.add_mod_right, Nat.mod_eq_of_lt hc] using hw
    have hval : valid_fn r r.producer = true := by
      unfold valid_fn
      rw [hslot]
      rfl
    have hcond : (r.size == 0 || valid_fn r r.producer) = true := by
      rw [hval]
      simp
    unfold __core_ring_produce
    rw [hcond]
    rfl

/-- Consume step, ring not empty: the head of the abstract queue is
returned and removed, the freed slot is zeroed, and the consumer index
advances with wrap. -/
theorem core_consume_ok {α : Type} {r : core_ring α} {x : α} {q : List α}
    (h : core_reps r (x :: q)) :
    (__core_ring_consume r).1 = some x ∧
    core_reps (__core_ring_consume r).2 q := by
  obtain ⟨hlen, hle, hz, hpos, hwin, hemp⟩ := h
  have hcons : (x :: q).length = q.length + 1 := by simp
  have hs : 0 < r.size := by omega
  obtain ⟨hc, hp⟩ := hpos hs
  have hslot : r.slots.getD r.consumer none = some x := by
    have hw := hwin 0 x (by simp)
    simpa [Nat.mod_eq_of_lt hc] using hw
  have hv : valid_fn r r.consumer = true := by
    unfold valid_fn
    rw [hslot]
    rfl
  have hres : __core_ring_consume r =
      (r.slots.getD r.consumer none,
       { r with slots := r.slots.set r.consumer none,
                consumer := if r.consumer + 1 ≥ r.size then 0 else r.consumer + 1 }) := by
    unfold __core_ring_consume __core_ring_discard_one
    rw [hv]
    rfl
  rw [hres]
  have hshift : ∀ i : Nat,
      ((if r.consumer + 1 ≥ r.size then 0 else r.consumer + 1) + i) % r.size =
      (r.consumer + (i + 1)) % r.size := by
    intro i
    rw [wrap_eq_mod hc, Nat.mod_add_mod, Nat.add_assoc, Nat.add_comm 1 i]
  refine ⟨hslot, by simpa using hlen, by show q.length ≤ r.size; omega,
    fun h0 => absurd (show r.size = 0 from h0) (by omega),
    fun _ => ⟨?_, ?_⟩, fun i y hiy => ?_, fun j hj hout => ?_⟩
  · show (if r.consumer + 1 ≥ r.size then 0 else r.consumer + 1) < r.size
    rw [wrap_eq_mod hc]
    exact Nat.mod_lt _ hs
  · show r.producer =
      ((if r.consumer + 1 ≥ r.size then 0 else r.consumer + 1) + q.length) % r.size
    rw [hshift q.length, hp, hcons]
  · have hi : i < q.length := (List.getElem?_eq_some_iff.mp hiy).1
    show (r.slots.set r.consumer none).getD
      (((if r.consumer + 1 ≥ r.size then 0 else r.consumer + 1) + i) % r.size) none = some y
    have hne : r.consumer ≠
        ((if r.consumer + 1 ≥ r.size then 0 else r.consumer + 1) + i) % r.size := by
      rw [hshift i]
      intro heq
      refine @window_index_inj r.consumer (i + 1) 0 r.size (by omega) hs
        (by omega) ?_
      rw [← heq]
      simp [Nat.mod_eq_of_lt hc]
    rw [getD_set_ne _ _ _ _ _ hne, hshift i]
    exact hwin (i + 1) y (by simpa using hiy)
  · show (r.slots.set r.consumer none).getD j none = none
    by_cases hjc : j = r.consumer
    · subst hjc
      exact getD_set_self _ _ _ _ (hlen ▸ hc)
    · rw [getD_set_ne _ _ _ _ _ fun hcj => hjc hcj.symm]
      refine hemp j hj fun i hi => ?_
      match i with
      | 0 =>
        simp only [Nat.add_zero, Nat.mod_eq_of_lt hc]
        exact fun hcj => hjc hcj.symm
      | Nat.succ i2 =>
        have hi2 : i2 < q.length := by omega
        have ho := hout i2 hi2
        rw [hshift i2] at ho
        simpa [Nat.add_comm i2 1] using ho

/-- Consume step, ring empty: nothing is returned and the state is
unchanged. -/
theorem core_consume_empty {α : Type} {r : core_ring α}
    (h : core_reps r []) : __core_ring_consume r = (none, r) := by
  obtain ⟨hlen, hle, hz, hpos, hwin, hemp⟩ := h
  have hnone : r.slots.getD r.consumer none = none := by
    rcases Nat.eq_zero_or_pos r.size with hs | hs
    · have hnil : r.slots = [] := List.eq_nil_of_length_eq_zero (hs ▸ hlen)
      simp [hnil, List.getD]
    · exact hemp r.consumer (hpos hs).1 (by simp)
  have hv : valid_fn r r.consumer = false := by
    unfold valid_fn
    rw [hnone]
    rfl
  unfold __core_ring_consume
  rw [hv]
  rfl

/-- A sequence of produce calls with no interleaved consume; `some r2`
means every call reported success. -/
def core_produce_all {α : Type} (r : core_ring α) (es : List α) :
    Option (core_ring α) :=
  match es with
  | [] => some r
  | e :: es =>
    let s1 := __core_ring_produce r e
    if s1.1 = 0 then core_produce_all s1.2 es else none

/-- Iterate `n` consecutive consume calls, collecting each call's result. -/
def core_consume_n {α : Type} (r : core_ring α) (n : Nat) :
    List (Option α) × core_ring α :=
  match n with
  | 0 => ([], r)
  | n + 1 =>
    let s1 := __core_ring_consume r
    let rest := core_consume_n s1.2 n
    (s1.1 :: rest.1, rest.2)

/-- Produce preserves the capacity field. -/
theorem core_produce_size {α : Type} (r : core_ring α) (x : α) :
    ((__core_ring_produce r x).2).size = r.size := by
  unfold __core_ring_produce
  split <;> rfl

/-- Consume preserves the capacity field. -/
theorem core_consume_size {α : Type} (r : core_ring α) :
    ((__core_ring_consume r).2).size = r.size := by
  unfold __core_ring_consume __core_ring_discard_one
  split <;> rfl

/-- A run of successful produces extends the abstract queue on the right. -/
theorem core_produce_all_reps {α : Type} (es : List α) :
    ∀ (r r2 : core_ring α) (q : List α), core_reps r q →
    core_produce_all r es = some r2 → core_reps r2 (q ++ es) := by
  induction es with
  | nil =>
    intro r r2 q h hall
    simp only [core_produce_all, Option.some.injEq] at hall
    simpa [← hall] using h
  | cons e es ih =>
    intro r r2 q h hall
    have hle : q.length ≤ r.size := h.2.1
    rcases Nat.lt_or_ge q.length r.size with hlt | hge
    · obtain ⟨h0, hreps⟩ := core_produce_ok e h hlt
      simp only [core_produce_all, h0, if_pos] at hall
      have := ih _ _ _ hreps hall
      simpa [List.append_assoc] using this
    · have hfull : q.length = r.size := by omega
      have hfail := core_produce_full e h hfull
      rw [core_produce_all] at hall
      rw [hfail] at hall
      simp [ENOSPC] at hall

/-- Room in the ring guarantees a run of produces succeeds. -/
theorem core_produce_all_ok {α : Type} (es : List α) :
    ∀ (r : core_ring α) (q : List α), core_reps r q →
    q.length + es.length ≤ r.size →
    ∃ r2, core_produce_all r es = some r2 ∧ core_reps r2 (q ++ es) := by
  induction es with
  | nil =>
    intro r q h _
    exact ⟨r, rfl, by simpa using h⟩
  | cons e es ih =>
    intro r q h hroom
    have hlt : q.length < r.size := by
      have := es.length
      simp only [List.length_cons] at hroom
      omega
    obtain ⟨h0, hreps⟩ := core_produce_ok e h hlt
    have hsz : ((__core_ring_produce r e).2).size = r.size := core_produce_size r e
    obtain ⟨r2, hall, hr2⟩ := ih _ _ hreps
      (by simp only [List.length_append, List.length_cons, List.length_nil] at *; omega)
    refine ⟨r2, ?_, by simpa [List.append_assoc] using hr2⟩
    simp only [core_produce_all, h0, if_pos]
    exact hall

/-- Consuming exactly the resident count returns the abstract queue in
order and drains the ring. -/
theorem core_consume_n_reps {α : Type} (q : List α) :
    ∀ (r : core_ring α), core_reps r q →
    (core_consume_n r q.length).1 = q.map some ∧
    core_reps (core_consume_n r q.length).2 [] := by
  induction q with
  | nil =>
    intro r h
    exact ⟨rfl, h⟩
  | cons x q ih =>
    intro r h
    obtain ⟨hx, hreps⟩ := core_consume_ok h
    obtain ⟨ih1, ih2⟩ := ih _ hreps
    simp only [List.length_cons, core_consume_n, List.map_cons]
    exact ⟨by rw [hx, ih1], ih2⟩

/-- When the consumer slot tests invalid, consume returns nothing and
leaves the state unchanged on this call and every subsequent one. -/
theorem core_consume_invalid {α : Type} {r : core_ring α}
    (h : valid_fn r r.consumer = false) :
    __core_ring_consume r = (none, r) := by
  unfold __core_ring_consume
  rw [h]
  rfl

/-- Repeated consume calls on a ring whose consumer slot is invalid all
return nothing and never change the state. -/
theorem core_consume_n_invalid {α : Type} {r : core_ring α}
    (h : valid_fn r r.consumer = false) (n : Nat) :
    core_consume_n r n = (List.replicate n none, r) := by
  induction n with
  | zero => rfl
  | succ n ih =>
    simp only [core_consume_n, core_consume_invalid h, ih, List.replicate_succ]

/-- One caller action on the generic ring: a produce of a given element,
or a consume. -/
inductive core_op (α : Type) where
  | produce (x : α)
  | consume

/-- Apply one caller action (the failure result of a rejected produce or
an empty consume is discarded; the state is kept). -/
def core_step {α : Type} (r : core_ring α) (op : core_op α) : core_ring α :=
  match op with
  | .produce x => (__core_ring_produce r x).2
  | .consume => (__core_ring_consume r).2

/-- Run a sequence of caller actions from a state. -/
def core_run_from {α : Type} (r : core_ring α) (ops : List (core_op α)) :
    core_ring α :=
  match ops with
  | [] => r
  | op :: ops => core_run_from (core_step r op) ops

/-- Run a sequence of caller actions on a freshly initialized ring. -/
def core_run (α : Type) (cap : Nat) (ops : List (core_op α)) : core_ring α :=
  core_run_from (core_ring_init α cap).2 ops

/-- The logical element count of a generic ring state: the number of
valid (occupied) slots. -/
def core_count {α : Type} (r : core_ring α) : Nat :=
  r.slots.countP (fun o => o.isSome)

/-- Every state reachable from a represented state is represented. -/
theorem core_run_from_reps {α : Type} (ops : List (core_op α)) :
    ∀ (r : core_ring α) (q : List α), core_reps r q →
    ∃ q2, core_reps (core_run_from r ops) q2 := by
  induction ops with
  | nil => exact fun r q h => ⟨q, h⟩
  | cons op ops ih =>
    intro r q h
    match op with
    | .produce x =>
      rcases Nat.lt_or_ge q.length r.size with hlt | hge
      · exact ih _ _ (core_produce_ok x h hlt).2
      · have hfull : q.length = r.size := by have := h.2.1; omega
        have hfail := core_produce_full x h hfull
        refine ih _ q ?_
        show core_reps (core_step r (core_op.produce x)) q
        simp only [core_step, hfail]
        exact h
    | .consume =>
      match q with
      | [] =>
        refine ih _ ([] : List α) ?_
        show core_reps (core_step r core_op.consume) []
        simp only [core_step, core_consume_empty h]
        exact h
      | x :: q2 => exact ih _ _ (core_consume_ok h).2

/-- Zeroing an occupied slot decrements the occupied-slot count. -/
theorem countP_set_none {α : Type} :
    ∀ (l : List (Option α)) (i : Nat) (x : α), l.getD i none = some x →
    i < l.length →
    (l.set i none).countP (fun o => o.isSome) + 1 =
      l.countP (fun o => o.isSome) := by
  intro l
  induction l with
  | nil => intro i x _ hi; simp at hi
  | cons a l ih =>
    intro i x hx hi
    match i with
    | 0 =>
      have ha : a = some x := by simpa [List.getD] using hx
      simp [List.countP_cons, ha]
    | Nat.succ i2 =>
      have hx2 : l.getD i2 none = some x := by simpa [List.getD] using hx
      have hi2 : i2 < l.length := by simpa using hi
      have := ih i2 x hx2 hi2
      simp only [List.set, List.countP_cons]
      omega

/-- If a slot tests valid, consume only zeroes that slot in the storage. -/
theorem core_consume_slots {α : Type} {r : core_ring α}
    (h : valid_fn r r.consumer = true) :
    ((__core_ring_consume r).2).slots = r.slots.set r.consumer none := by
  unfold __core_ring_consume __core_ring_discard_one
  rw [h]
  rfl

/-- The occupied-slot count of a represented state is the abstract queue
length. -/
theorem core_reps_count {α : Type} (q : List α) :
    ∀ (r : core_ring α), core_reps r q → core_count r = q.length := by
  induction q with
  | nil =>
    intro r h
    obtain ⟨hlen, _, _, _, _, hemp⟩ := h
    refine List.countP_eq_zero.mpr fun a ha => ?_
    obtain ⟨j, hj, hja⟩ := List.mem_iff_getElem.mp ha
    have hnone : r.slots.getD j none = none := hemp j (hlen ▸ hj) (by simp)
    have : a = none := by
      rw [← hja]
      simpa [List.getD, List.getElem?_eq_getElem hj] using hnone
    simp [this]
  | cons x q ih =>
    intro r h
    have hs : 0 < r.size := by
      have := h.2.1
      simp only [List.length_cons] at this
      omega
    have hc : r.consumer < r.size := (h.2.2.2.1 hs).1
    have hslot : r.slots.getD r.consumer none = some x := by
      have hw := h.2.2.2.2.1 0 x (by simp)
      simpa [Nat.mod_eq_of_lt hc] using hw
    have hv : valid_fn r r.consumer = true := by
      unfold valid_fn
      rw [hslot]
      rfl
    have hreps := (core_consume_ok h).2
    have hcount := ih _ hreps
    rw [core_count, ← countP_set_none r.slots r.consumer x hslot (h.1 ▸ hc)]
    rw [core_count, core_consume_slots hv] at hcount
    simp [hcount]

/-- The fields of `struct sk_buff` the packet ring reads: the payload
byte length and the VLAN tag bit behind `skb_vlan_tag_present`; `id`
distinguishes payload instances. -/
structure sk_buff where
  len : Nat
  vlan_present : Bool
  id : Nat
deriving DecidableEq

instance : Inhabited sk_buff := ⟨⟨0, false, 0⟩⟩

/-- Predicate `skb_vlan_tag_present(skb)`, modelled as the boolean tag bit. -/
def skb_vlan_tag_present (s : sk_buff) : Bool :=
  s.vlan_present

/-- The state of `struct skb_desc`: payload pointer plus the length cached for
peeking. -/
structure skb_desc where
  skb : sk_buff
  len : Nat
deriving DecidableEq

instance : Inhabited skb_desc := ⟨⟨default, 0⟩⟩

/-- The state of `struct skb_ring`: consumer index (`tail`), capacity (`size`),
descriptor storage, producer index (`head`).  The two spinlocks are not
part of the sequential state. -/
structure skb_ring where
  tail : Nat
  size : Nat
  descs : List skb_desc
  head : Nat
deriving DecidableEq

/-- Machine `unsigned long` subtraction `a - b`, for `b ≤ 2 ^ 64`: wraparound is
modelled with an explicit `% 2 ^ 64`. -/
def usub (a b : Nat) : Nat :=
  (a + 2 ^ 64 - b) % 2 ^ 64

/-- Macro `CIRC_CNT(head, tail, size)` from `linux/circ_buf.h`:
`((head) - (tail)) & ((size) - 1)`. -/
def CIRC_CNT (head tail size : Nat) : Nat :=
  usub head tail &&& (size - 1)

/-- Macro `CIRC_SPACE(head, tail, size)` from `linux/circ_buf.h`:
`CIRC_CNT((tail), ((head) + 1), (size))`. -/
def CIRC_SPACE (head tail size : Nat) : Nat :=
  CIRC_CNT tail (head + 1) size

/-- The length `skb_ring_queue` caches in the descriptor: the payload
length, plus `VLAN_HLEN` when a VLAN tag is present. -/
def cached_len (s : sk_buff) : Nat :=
  s.len + (if skb_vlan_tag_present s then VLAN_HLEN else 0)

/-- Function `skb_ring_init`: initialize both locks, zero head and tail, then
allocate the descriptor array with `kmalloc` (whose outcome, since it is
external, is the `alloc` argument; `kmalloc` does not zero the memory, so
a successful allocation hands back arbitrary descriptor contents).  On
allocation failure return `-ENOMEM` with `size` and `descs` untouched; on
success record the storage and the size and return 0. -/
def skb_ring_init (r0 : skb_ring) (size : Nat)
    (alloc : Option (List skb_desc)) : Int × skb_ring :=
  let r1 := { r0 with head := 0, tail := 0 }
  match alloc with
  | none => (-ENOMEM, r1)
  | some d => (0, { r1 with descs := d, size := size })

/-- Function `skb_ring_queue`: under the writer lock, if `CIRC_SPACE ≥ 1` write
the descriptor (payload pointer plus cached length) at `head` and publish
`head + 1` masked by `size - 1`; otherwise return `-EFAULT`. -/
def skb_ring_queue (r : skb_ring) (skb : sk_buff) : Int × skb_ring :=
  let tail := r.tail
  let head := r.head
  if CIRC_SPACE head tail r.size ≥ 1 then
    (0, { r with descs := r.descs.set head { skb := skb, len := cached_len skb },
                 head := (head + 1) &&& (r.size - 1) })
  else
    (-EFAULT, r)

/-- Function `skb_ring_dequeue`: under the reader lock, if `CIRC_CNT ≥ 1` read the
payload at `tail` and publish `tail + 1` masked by `size - 1`; otherwise
return nothing. -/
def skb_ring_dequeue (r : skb_ring) : Option sk_buff × skb_ring :=
  let head := r.head
  let tail := r.tail
  if CIRC_CNT head tail r.size ≥ 1 then
    (some (r.descs.getD tail default).skb,
     { r with tail := (tail + 1) &&& (r.size - 1) })
  else
    (none, r)

/-- Function `skb_ring_peek`: lock-free; return the cached length of the head
(oldest) descriptor when at least one element is resident, else 0. -/
def skb_ring_peek (r : skb_ring) : Nat :=
  let head := r.head
  let tail := r.tail
  if CIRC_CNT head tail r.size ≥ 1 then (r.descs.getD tail default).len else 0

/-- Function `skb_ring_queue_len`: lock-free count of resident elements. -/
def skb_ring_queue_len (r : skb_ring) : Nat :=
  CIRC_CNT r.head r.tail r.size

/-- Function `skb_ring_empty`: head and tail coincide. -/
def skb_ring_empty (r : skb_ring) : Bool :=
  r.head == r.tail

/-- The loop of `skb_ring_purge`, with explicit fuel.  The C loop reads
`head` and `tail` into locals once, before the loop; the loop condition
`CIRC_CNT(head, tail, ring->size) >= 1` and the body (`kfree_skb` of
`descs[tail].skb`, then a store of `(tail + 1) & (size - 1)` to
`ring->tail`) only ever use those never-updated locals.  The result is
the list of payloads passed to `kfree_skb`, the last value stored to
`ring->tail`, and whether the loop exited by its condition within
`fuel` iterations. -/
def skb_ring_purge_loop (head tail size : Nat) (descs : List skb_desc)
    (stored_tail : Nat) (fuel : Nat) : List sk_buff × Nat × Bool :=
  if CIRC_CNT head tail size ≥ 1 then
    match fuel with
    | 0 => ([], stored_tail, false)
    | fuel + 1 =>
      let freed := (descs.getD tail default).skb
      let st := (tail + 1) &&& (size - 1)
      let rest := skb_ring_purge_loop head tail size descs st fuel
      (freed :: rest.1, rest.2)
  else
    ([], stored_tail, true)

/-- Function `skb_ring_purge`: under both locks, run the drain loop; the state
keeps the last published `tail`.  The boolean reports whether the loop
terminated within `fuel` iterations. -/
def skb_ring_purge (r : skb_ring) (fuel : Nat) : List sk_buff × skb_ring × Bool :=
  let head := r.head
  let tail := r.tail
  let res := skb_ring_purge_loop head tail r.size r.descs tail fuel
  (res.1, { r with tail := res.2.1 }, res.2.2)

example : skb_ring_queue ⟨0, 2, [default, default], 0⟩ ⟨10, false, 1⟩ =
    (0, ⟨0, 2, [⟨⟨10, false, 1⟩, 10⟩, default], 1⟩) := by decide

example : skb_ring_queue ⟨0, 2, [⟨⟨10, false, 1⟩, 10⟩, default], 1⟩ ⟨9, true, 2⟩ =
    (-EFAULT, ⟨0, 2, [⟨⟨10, false, 1⟩, 10⟩, default], 1⟩) := by decide

example : skb_ring_dequeue ⟨0, 2, [⟨⟨10, false, 1⟩, 10⟩, default], 1⟩ =
    (some ⟨10, false, 1⟩, ⟨1, 2, [⟨⟨10, false, 1⟩, 10⟩, default], 1⟩) := by decide

example : skb_ring_peek ⟨0, 2, [⟨⟨10, true, 1⟩, 14⟩, default], 1⟩ = 14 := by decide

/-- Masking with `2 ^ k - 1` is reduction modulo `2 ^ k`. -/
theorem land_mask (x k : Nat) : x &&& (2 ^ k - 1) = x % 2 ^ k :=
  Nat.and_pow_two_sub_one_eq_mod x k

/-- The wrapped `unsigned long` difference agrees with the unwrapped one
modulo `2 ^ k` whenever `k ≤ 64` and the subtrahend is at most `2 ^ k`. -/
theorem usub_mod {k : Nat} (hk : k ≤ 64) (h t : Nat) (ht : t ≤ 2 ^ k) :
    usub h t % 2 ^ k = (h + 2 ^ k - t) % 2 ^ k := by
  have hdvd : (2 : Nat) ^ k ∣ 2 ^ 64 := pow_dvd_pow 2 hk
  have hk64 : (2 : Nat) ^ k ≤ 2 ^ 64 := Nat.pow_le_pow_right (by norm_num) hk
  rw [usub, Nat.mod_mod_of_dvd _ hdvd]
  have hsplit : h + 2 ^ 64 - t = h + 2 ^ k - t + (2 ^ 64 - 2 ^ k) := by omega
  obtain ⟨m, hm⟩ : (2 : Nat) ^ k ∣ 2 ^ 64 - 2 ^ k := Nat.dvd_sub' hdvd dvd_rfl
  rw [hsplit, hm, Nat.add_mul_mod_self_left]

/-- Macro `CIRC_CNT` over a power-of-two size, with in-range subtrahend. -/
theorem circ_cnt_eq {k : Nat} (hk : k ≤ 64) (h t : Nat) (ht : t ≤ 2 ^ k) :
    CIRC_CNT h t (2 ^ k) = (h + 2 ^ k - t) % 2 ^ k := by
  rw [CIRC_CNT, land_mask, usub_mod hk h t ht]

/-- Macro `CIRC_CNT` counts the resident elements when the head sits `len`
past the tail modulo the size. -/
theorem circ_cnt_len {k : Nat} (hk : k ≤ 64) {t len : Nat} (ht : t < 2 ^ k)
    (hlen : len < 2 ^ k) :
    CIRC_CNT ((t + len) % 2 ^ k) t (2 ^ k) = len := by
  rw [circ_cnt_eq hk _ _ (Nat.le_of_lt ht)]
  rcases Nat.lt_or_ge (t + len) (2 ^ k) with hc | hc
  · rw [Nat.mod_eq_of_lt hc]
    have he : t + len + 2 ^ k - t = len + 2 ^ k := by omega
    rw [he, Nat.add_mod_right, Nat.mod_eq_of_lt hlen]
  · have hm : (t + len) % 2 ^ k = t + len - 2 ^ k := by
      rw [Nat.mod_eq_sub_mod hc, Nat.mod_eq_of_lt (by omega)]
    rw [hm]
    have he : t + len - 2 ^ k + 2 ^ k - t = len := by omega
    rw [he, Nat.mod_eq_of_lt hlen]

/-- Macro `CIRC_SPACE` leaves exactly `size - 1 - len` free places when `len`
elements are resident: one slot is always kept unused. -/
theorem circ_space_len {k : Nat} (hk : k ≤ 64) {t len : Nat} (ht : t < 2 ^ k)
    (hlen : len < 2 ^ k) :
    CIRC_SPACE ((t + len) % 2 ^ k) t (2 ^ k) = 2 ^ k - 1 - len := by
  have hpos : 0 < (2 : Nat) ^ k := Nat.pos_pow_of_pos k (by norm_num)
  have hhb : (t + len) % 2 ^ k < 2 ^ k := Nat.mod_lt _ hpos
  rw [CIRC_SPACE, circ_cnt_eq hk t ((t + len) % 2 ^ k + 1) (by omega)]
  rcases Nat.lt_or_ge (t + len) (2 ^ k) with hc | hc
  · have hm : (t + len) % 2 ^ k = t + len := Nat.mod_eq_of_lt hc
    rw [hm]
    have he : t + 2 ^ k - (t + len + 1) = 2 ^ k - 1 - len := by omega
    rw [he, Nat.mod_eq_of_lt (by omega)]
  · have hm : (t + len) % 2 ^ k = t + len - 2 ^ k := by
      rw [Nat.mod_eq_sub_mod hc, Nat.mod_eq_of_lt (by omega)]
    rw [hm]
    have he : t + 2 ^ k - (t + len - 2 ^ k + 1) = 2 ^ k + (2 ^ k - 1 - len) := by
      omega
    rw [he, Nat.add_mod_left, Nat.mod_eq_of_lt (by omega)]

/-- Abstraction relation for the packet ring: the state `r`, whose size
is the power of two `2 ^ k` (`k ≤ 64`), represents the FIFO queue `q`
(oldest payload first).  The resident descriptors sit at the `q.length`
consecutive indices starting at `tail` (modulo the size), each carrying
its payload together with the cached length; head sits just past them.
A circular buffer keeps one slot unused, so at most `size - 1` elements
are resident. -/
def skb_reps (k : Nat) (r : skb_ring) (q : List sk_buff) : Prop :=
  k ≤ 64 ∧
  r.size = 2 ^ k ∧
  r.descs.length = r.size ∧
  r.tail < r.size ∧
  q.length < r.size ∧
  r.head = (r.tail + q.length) % r.size ∧
  (∀ i s, q[i]? = some s →
    r.descs.getD ((r.tail + i) % r.size) default =
      { skb := s, len := cached_len s })

/-- A freshly and successfully initialized packet ring represents the
empty queue, whatever the (unzeroed) contents of the fresh storage. -/
theorem skb_init_reps {k : Nat} (hk : k ≤ 64) (r0 : skb_ring)
    (d : List skb_desc) (hd : d.length = 2 ^ k) :
    skb_reps k (skb_ring_init r0 (2 ^ k) (some d)).2 [] := by
  have hpos : 0 < (2 : Nat) ^ k := Nat.pos_pow_of_pos k (by norm_num)
  exact ⟨hk, rfl, hd, hpos, hpos, by simp [skb_ring_init],
    fun i s his => by simp at his⟩

/-- Queue step, space available: the payload is appended with its cached
length and the call reports success. -/
theorem skb_queue_ok {k : Nat} {r : skb_ring} {q : List sk_buff} (s : sk_buff)
    (h : skb_reps k r q) (hroom : q.length + 1 < r.size) :
    (skb_ring_queue r s).1 = 0 ∧ skb_reps k (skb_ring_queue r s).2 (q ++ [s]) := by
  obtain ⟨hk, hsz, hlen, ht, hql, hh, hwin⟩ := h
  have hpos : 0 < r.size := by
    rw [hsz]
    exact Nat.pos_pow_of_pos k (by norm_num)
  have hhb : r.head < r.size := by
    rw [hh]
    exact Nat.mod_lt _ hpos
  have hspace : CIRC_SPACE r.head r.tail r.size = r.size - 1 - q.length := by
    rw [hh, hsz]
    rw [hsz] at ht hql
    have := circ_space_len hk ht hql
    simpa using this
  have hcond : CIRC_SPACE r.head r.tail r.size ≥ 1 := by omega
  have hres : skb_ring_queue r s =
      (0, { r with descs := r.descs.set r.head { skb := s, len := cached_len s },
                   head := (r.head + 1) &&& (r.size - 1) }) := by
    unfold skb_ring_queue
    rw [if_pos hcond]
  rw [hres]
  have happ : (q ++ [s]).length = q.length + 1 := by simp
  refine ⟨rfl, hk, hsz, by simpa using hlen, ht, by show (q ++ [s]).length < r.size; omega,
    ?_, fun i y hiy => ?_⟩
  · show (r.head + 1) &&& (r.size - 1) = (r.tail + (q ++ [s]).length) % r.size
    rw [hsz, land_mask, hh, hsz, Nat.mod_add_mod, happ, ← Nat.add_assoc]
  · show (r.descs.set r.head { skb := s, len := cached_len s }).getD
      ((r.tail + i) % r.size) default = { skb := y, len := cached_len y }
    rcases Nat.lt_trichotomy i q.length with hi | hi | hi
    · rw [List.getElem?_append_left hi] at hiy
      rw [getD_set_ne _ _ _ _ _
        (hh ▸ (window_index_inj (Nat.lt_trans hi hql) hql (Nat.ne_of_lt hi)).symm)]
      exact hwin i y hiy
    · subst hi
      rw [List.getElem?_concat_length] at hiy
      cases hiy
      rw [← hh, getD_set_self _ _ _ _ (hlen ▸ hhb)]
    · rw [List.getElem?_eq_none_iff.mpr (by omega)] at hiy
      exact absurd hiy (by simp)

/-- Queue step, no space (the queue already holds `size - 1` payloads):
the call reports `-EFAULT` and the state is returned unchanged. -/
theorem skb_queue_full {k : Nat} {r : skb_ring} {q : List sk_buff} (s : sk_buff)
    (h : skb_reps k r q) (hfull : q.length + 1 = r.size) :
    skb_ring_queue r s = (-EFAULT, r) := by
  obtain ⟨hk, hsz, hlen, ht, hql, hh, hwin⟩ := h
  have hspace : CIRC_SPACE r.head r.tail r.size = r.size - 1 - q.length := by
    rw [hh, hsz]
    rw [hsz] at ht hql
    simpa using circ_space_len hk ht hql
  have hcond : ¬ CIRC_SPACE r.head r.tail r.size ≥ 1 := by omega
  unfold skb_ring_queue
  rw [if_neg hcond]

/-- Dequeue step, ring not empty: the oldest payload is returned and the
tail advances. -/
theorem skb_dequeue_ok {k : Nat} {r : skb_ring} {x : sk_buff} {q : List sk_buff}
    (h : skb_reps k r (x :: q)) :
    (skb_ring_dequeue r).1 = some x ∧ skb_reps k (skb_ring_dequeue r).2 q := by
  obtain ⟨hk, hsz, hlen, ht, hql, hh, hwin⟩ := h
  have hpos : 0 < r.size := by
    rw [hsz]
    exact Nat.pos_pow_of_pos k (by norm_num)
  have hcnt : CIRC_CNT r.head r.tail r.size = (x :: q).length := by
    rw [hh, hsz]
    rw [hsz] at ht hql
    simpa using circ_cnt_len hk ht hql
  have hcond : CIRC_CNT r.head r.tail r.size ≥ 1 := by
    rw [hcnt]
    simp
  have hdesc : r.descs.getD r.tail default = { skb := x, len := cached_len x } := by
    have hw := hwin 0 x (by simp)
    simpa [Nat.mod_eq_of_lt ht] using hw
  have hres : skb_ring_dequeue r =
      (some (r.descs.getD r.tail default).skb,
       { r with tail := (r.tail + 1) &&& (r.size - 1) }) := by
    unfold skb_ring_dequeue
    rw [if_pos hcond]
  rw [hres]
  have hcons : (x :: q).length = q.length + 1 := by simp
  have htail : (r.tail + 1) &&& (r.size - 1) = (r.tail + 1) % r.size := by
    rw [hsz, land_mask]
  refine ⟨by rw [hdesc], hk, hsz, hlen, ?_, by show q.length < r.size; omega, ?_,
    fun i y hiy => ?_⟩
  · show (r.tail + 1) &&& (r.size - 1) < r.size
    rw [htail]
    exact Nat.mod_lt _ hpos
  · show r.head = (((r.tail + 1) &&& (r.size - 1)) + q.length) % r.size
    rw [htail, Nat.mod_add_mod, hh, hcons, Nat.add_assoc, Nat.add_comm 1 q.length]
  · show r.descs.getD ((((r.tail + 1) &&& (r.size - 1)) + i) % r.size) default =
      { skb := y, len := cached_len y }
    rw [htail, Nat.mod_add_mod, Nat.add_assoc, Nat.add_comm 1 i]
    exact hwin (i + 1) y (by simpa using hiy)

/-- Dequeue step, ring empty: nothing is returned and the state is
unchanged. -/
theorem skb_dequeue_empty {k : Nat} {r : skb_ring}
    (h : skb_reps k r []) : skb_ring_dequeue r = (none, r) := by
  obtain ⟨hk, hsz, hlen, ht, hql, hh, hwin⟩ := h
  have hcnt : CIRC_CNT r.head r.tail r.size = 0 := by
    rw [hh, hsz]
    rw [hsz] at ht hql
    simpa using @circ_cnt_len k hk r.tail 0 ht (by omega)
  have hcond : ¬ CIRC_CNT r.head r.tail r.size ≥ 1 := by omega
  unfold skb_ring_dequeue
  rw [if_neg hcond]

/-- The lock-free length query counts the abstract queue. -/
theorem skb_queue_len_reps {k : Nat} {r : skb_ring} {q : List sk_buff}
    (h : skb_reps k r q) : skb_ring_queue_len r = q.length := by
  obtain ⟨hk, hsz, hlen, ht, hql, hh, hwin⟩ := h
  rw [skb_ring_queue_len, hh, hsz]
  rw [hsz] at ht hql
  simpa using circ_cnt_len hk ht hql

/-- The lock-free peek returns the cached length of the oldest resident
payload, or 0 on an empty ring. -/
theorem skb_peek_reps {k : Nat} {r : skb_ring} {q : List sk_buff}
    (h : skb_reps k r q) :
    skb_ring_peek r = match q with
      | [] => 0
      | s :: _ => cached_len s := by
  obtain ⟨hk, hsz, hlen, ht, hql, hh, hwin⟩ := h
  have hcnt : CIRC_CNT r.head r.tail r.size = q.length := by
    rw [hh, hsz]
    rw [hsz] at ht hql
    simpa using circ_cnt_len hk ht hql
  match q with
  | [] =>
    have hcond : ¬ CIRC_CNT r.head r.tail r.size ≥ 1 := by
      rw [hcnt]
      simp
    unfold skb_ring_peek
    rw [if_neg hcond]
  | s :: q2 =>
    have hcond : CIRC_CNT r.head r.tail r.size ≥ 1 := by
      rw [hcnt]
      simp
    have hdesc : r.descs.getD r.tail default = { skb := s, len := cached_len s } := by
      have hw := hwin 0 s (by simp)
      simpa [Nat.mod_eq_of_lt ht] using hw
    unfold skb_ring_peek
    rw [if_pos hcond, hdesc]

/-- A sequence of queue calls with no interleaved dequeue; `some r2`
means every call reported success. -/
def skb_produce_all (r : skb_ring) (es : List sk_buff) : Option skb_ring :=
  match es with
  | [] => some r
  | e :: es =>
    let s1 := skb_ring_queue r e
    if s1.1 = 0 then skb_produce_all s1.2 es else none

/-- Iterate `n` consecutive dequeue calls, collecting each call's result. -/
def skb_consume_n (r : skb_ring) (n : Nat) : List (Option sk_buff) × skb_ring :=
  match n with
  | 0 => ([], r)
  | n + 1 =>
    let s1 := skb_ring_dequeue r
    let rest := skb_consume_n s1.2 n
    (s1.1 :: rest.1, rest.2)

/-- A run of successful queue calls extends the abstract queue on the
right. -/
theorem skb_produce_all_reps {k : Nat} (es : List sk_buff) :
    ∀ (r r2 : skb_ring) (q : List sk_buff), skb_reps k r q →
    skb_produce_all r es = some r2 → skb_reps k r2 (q ++ es) := by
  induction es with
  | nil =>
    intro r r2 q h hall
    simp only [skb_produce_all, Option.some.injEq] at hall
    simpa [← hall] using h
  | cons e es ih =>
    intro r r2 q h hall
    have hql : q.length < r.size := h.2.2.2.2.1
    rcases Nat.lt_or_ge (q.length + 1) r.size with hlt | hge
    · obtain ⟨h0, hreps⟩ := skb_queue_ok e h hlt
      simp only [skb_produce_all, h0, if_pos] at hall
      simpa [List.append_assoc] using ih _ _ _ hreps hall
    · have hfull : q.length + 1 = r.size := by omega
      have hfail := skb_queue_full e h hfull
      rw [skb_produce_all] at hall
      rw [hfail] at hall
      simp [EFAULT] at hall

/-- Room in the packet ring guarantees a run of queue calls succeeds. -/
theorem skb_produce_all_ok {k : Nat} (es : List sk_buff) :
    ∀ (r : skb_ring) (q : List sk_buff), skb_reps k r q →
    q.length + es.length + 1 ≤ r.size →
    ∃ r2, skb_produce_all r es = some r2 ∧ skb_reps k r2 (q ++ es) := by
  induction es with
  | nil =>
    intro r q h _
    exact ⟨r, rfl, by simpa using h⟩
  | cons e es ih =>
    intro r q h hroom
    have hlt : q.length + 1 < r.size := by
      simp only [List.length_cons] at hroom
      omega
    obtain ⟨h0, hreps⟩ := skb_queue_ok e h hlt
    have hsz : ((skb_ring_queue r e).2).size = r.size := by
      unfold skb_ring_queue
      dsimp only
      split <;> rfl
    obtain ⟨r2, hall, hr2⟩ := ih _ _ hreps
      (by simp only [List.length_append, List.length_cons, List.length_nil] at *; omega)
    refine ⟨r2, ?_, by simpa [List.append_assoc] using hr2⟩
    simp only [skb_produce_all, h0, if_pos]
    exact hall

/-- Dequeuing exactly the resident count returns the abstract queue in
order and drains the packet ring. -/
theorem skb_consume_n_reps {k : Nat} (q : List sk_buff) :
    ∀ r : skb_ring, skb_reps k r q →
    (skb_consume_n r q.length).1 = q.map some ∧
    skb_reps k (skb_consume_n r q.length).2 [] := by
  induction q with
  | nil => exact fun r h => ⟨rfl, h⟩
  | cons x q ih =>
    intro r h
    obtain ⟨hx, hreps⟩ := skb_dequeue_ok h
    obtain ⟨ih1, ih2⟩ := ih _ hreps
    simp only [List.length_cons, skb_consume_n, List.map_cons]
    exact ⟨by rw [hx, ih1], ih2⟩

/-- One caller action on the packet ring. -/
inductive skb_op where
  | produce (s : sk_buff)
  | consume

/-- Apply one caller action to the packet ring. -/
def skb_step (r : skb_ring) (op : skb_op) : skb_ring :=
  match op with
  | .produce s => (skb_ring_queue r s).2
  | .consume => (skb_ring_dequeue r).2

/-- Run a sequence of caller actions on the packet ring. -/
def skb_run_from (r : skb_ring) (ops : List skb_op) : skb_ring :=
  match ops with
  | [] => r
  | op :: ops => skb_run_from (skb_step r op) ops

/-- Every packet-ring state reachable from a represented state is
represented. -/
theorem skb_run_from_reps {k : Nat} (ops : List skb_op) :
    ∀ (r : skb_ring) (q : List sk_buff), skb_reps k r q →
    ∃ q2, skb_reps k (skb_run_from r ops) q2 := by
  induction ops with
  | nil => exact fun r q h => ⟨q, h⟩
  | cons op ops ih =>
    intro r q h
    match op with
    | .produce s =>
      rcases Nat.lt_or_ge (q.length + 1) r.size with hlt | hge
      · exact ih _ _ (skb_queue_ok s h hlt).2
      · have hfull : q.length + 1 = r.size := by
          have := h.2.2.2.2.1
          omega
        have hfail := skb_queue_full s h hfull
        refine ih _ q ?_
        show skb_reps k (skb_step r (skb_op.produce s)) q
        simp only [skb_step, hfail]
        exact h
    | .consume =>
      match q with
      | [] =>
        refine ih _ ([] : List sk_buff) ?_
        show skb_reps k (skb_step r skb_op.consume) []
        simp only [skb_step, skb_dequeue_empty h]
        exact h
      | x :: q2 => exact ih _ _ (skb_dequeue_ok h).2

/-- The purge loop never updates the local `tail` its condition and body
read; if the ring is non-empty the loop therefore never exits by its
condition, and it frees the descriptor at the initial tail once per
iteration, however much fuel it is given. -/
theorem skb_purge_loop_stuck {head tail size : Nat} {descs : List skb_desc}
    (h : CIRC_CNT head tail size ≥ 1) :
    ∀ (fuel st : Nat), skb_ring_purge_loop head tail size descs st fuel =
      (List.replicate fuel (descs.getD tail default).skb,
       (if fuel = 0 then st else (tail + 1) &&& (size - 1)), false) := by
  intro fuel
  induction fuel with
  | zero =>
    intro st
    unfold skb_ring_purge_loop
    rw [if_pos h]
    rfl
  | succ n ih =>
    intro st
    unfold skb_ring_purge_loop
    rw [if_pos h]
    simp only [ih, List.replicate_succ]
    rcases Nat.eq_zero_or_pos n with hn | hn <;> simp [hn]

/-- A run of successful produces preserves the capacity field. -/
theorem core_produce_all_size {α : Type} (es : List α) :
    ∀ (r r2 : core_ring α), core_produce_all r es = some r2 → r2.size = r.size := by
  induction es with
  | nil =>
    intro r r2 hall
    simp only [core_produce_all, Option.some.injEq] at hall
    rw [← hall]
  | cons e es ih =>
    intro r r2 hall
    rw [core_produce_all] at hall
    split at hall
    · exact (ih _ _ hall).trans (core_produce_size r e)
    · exact absurd hall (by simp)

/-- One caller action preserves the capacity field. -/
theorem core_step_size {α : Type} (r : core_ring α) (op : core_op α) :
    (core_step r op).size = r.size := by
  match op with
  | .produce x => exact core_produce_size r x
  | .consume => exact core_consume_size r

/-- A run of caller actions preserves the capacity field. -/
theorem core_run_from_size {α : Type} (ops : List (core_op α)) :
    ∀ r : core_ring α, (core_run_from r ops).size = r.size := by
  induction ops with
  | nil => exact fun r => rfl
  | cons op ops ih =>
    intro r
    rw [core_run_from]
    exact (ih _).trans (core_step_size r op)

/-- Batched consume equals iterated single consume: on a ring holding
`q`, a batch of at most-`n` steps with `q.length ≤ n` removes exactly the
`q.length` resident elements and reaches the same state as that many
single calls. -/
theorem core_batched_eq {α : Type} (q : List α) :
    ∀ (r : core_ring α) (n : Nat), core_reps r q → q.length ≤ n →
    (__core_ring_consume_batched r n).1 = q ∧
    (__core_ring_consume_batched r n).2 = (core_consume_n r q.length).2 := by
  induction q with
  | nil =>
    intro r n h _
    match n with
    | 0 => exact ⟨rfl, rfl⟩
    | n + 1 =>
      rw [__core_ring_consume_batched, core_consume_empty h]
      exact ⟨rfl, rfl⟩
  | cons x q ih =>
    intro r n h hn
    match n with
    | 0 => exact absurd hn (by simp)
    | n + 1 =>
      obtain ⟨hx, hreps⟩ := core_consume_ok h
      have hres : __core_ring_consume r =
          (some x, (__core_ring_consume r).2) := by
        rw [← hx]
      rw [__core_ring_consume_batched, hres]
      obtain ⟨ih1, ih2⟩ := ih _ n hreps (by simpa using hn)
      simp only [List.length_cons, core_consume_n]
      exact ⟨by rw [ih1], by rw [ih2]⟩

/-- A concrete represented generic ring: capacity 2 holding the single
element 5. -/
theorem core_reps_example :
    core_reps (⟨1, 0, 2, [some 5, none]⟩ : core_ring Nat) [5] := by
  have h := core_produce_all_reps [5] (core_ring_init Nat 2).2
    ⟨1, 0, 2, [some 5, none]⟩ [] (core_init_reps Nat 2) (by decide)
  simpa using h

/-- A concrete represented packet ring: size 2 (`k = 1`) holding one
VLAN-tagged payload of length 100, cached as 104. -/
theorem skb_reps_example :
    skb_reps 1 ⟨0, 2, [⟨⟨100, true, 7⟩, 104⟩, default], 1⟩ [⟨100, true, 7⟩] := by
  have h := @skb_produce_all_reps 1 [⟨100, true, 7⟩]
    (skb_ring_init ⟨0, 0, [], 0⟩ 2 (some [default, default])).2
    ⟨0, 2, [⟨⟨100, true, 7⟩, 104⟩, default], 1⟩ []
    (skb_init_reps (by norm_num) ⟨0, 0, [], 0⟩ [default, default] (by decide))
    (by decide)
  simpa using h

/-- A concrete represented empty packet ring of size 2 (`k = 1`). -/
theorem skb_reps_example0 :
    skb_reps 1 ⟨0, 2, [default, default], 0⟩ [] := by
  have h := @skb_init_reps 1 (by norm_num) ⟨0, 0, [], 0⟩
    [default, default] (by decide)
  simpa using h

/-- C1.  FIFO order: for both ring variants, after `n` successful
produce (resp. `skb_ring_queue`) calls placing `e1..en` into a freshly
initialized ring with no interleaved consume, `n` consume
(resp. `skb_ring_dequeue`) calls return exactly `e1..en` in that order
(the packet ring requires its documented power-of-two size). -/
theorem claim_C1_fifo_order :
    (∀ (α : Type) (cap : Nat) (es : List α) (r2 : core_ring α),
      core_produce_all (core_ring_init α cap).2 es = some r2 →
      (core_consume_n r2 es.length).1 = es.map some) ∧
    (∀ (k : Nat) (r0 : skb_ring) (d : List skb_desc) (es : List sk_buff)
      (r2 : skb_ring), k ≤ 64 → d.length = 2 ^ k →
      skb_produce_all (skb_ring_init r0 (2 ^ k) (some d)).2 es = some r2 →
      (skb_consume_n r2 es.length).1 = es.map some) := by
  constructor
  · intro α cap es r2 hall
    have hreps : core_reps r2 es := by
      simpa using core_produce_all_reps es _ r2 [] (core_init_reps α cap) hall
    exact (core_consume_n_reps es r2 hreps).1
  · intro k r0 d es r2 hk hd hall
    have hreps : skb_reps k r2 es := by
      simpa using skb_produce_all_reps es _ r2 [] (skb_init_reps hk r0 d hd) hall
    exact (skb_consume_n_reps es r2 hreps).1

/-- Witness for C1 at concrete inputs: a capacity-2 generic ring fed 5
then 7, and a size-2 packet ring fed one payload. -/
theorem claim_C1_fifo_order_witness :
    (core_consume_n (⟨0, 0, 2, [some 5, some 7]⟩ : core_ring Nat) 2).1 =
      [some 5, some 7] ∧
    (skb_consume_n ⟨0, 2, [⟨⟨3, false, 1⟩, 3⟩, default], 1⟩ 1).1 =
      [some ⟨3, false, 1⟩] :=
  ⟨claim_C1_fifo_order.1 Nat 2 [5, 7] _ (by decide),
   claim_C1_fifo_order.2 1 ⟨0, 0, [], 0⟩ [default, default] [⟨3, false, 1⟩] _
     (by norm_num) (by decide) (by decide)⟩

/-- C2 counterexample.  On the zero-capacity ring — a state
`core_ring_init` permits — the producer-index slot is not valid, yet
`__core_ring_produce` returns `-ENOSPC` with nothing copied and the
producer index not advanced, against the claim's universally quantified
"otherwise it copies the element into that slot ... and advances the
producer index". -/
theorem claim_C2_counterexample :
    valid_fn (⟨0, 0, 0, []⟩ : core_ring Nat) 0 = false ∧
    __core_ring_produce (⟨0, 0, 0, []⟩ : core_ring Nat) 3 =
      (-ENOSPC, ⟨0, 0, 0, []⟩) := by
  decide

/-- C2 amended.  For every index-based ring of nonzero capacity:
produce tests validity of the producer-index slot; a valid slot yields
`-ENOSPC` with the state unchanged; an invalid slot gets the element
copied in and the producer index advanced by one, wrapping to 0 at the
capacity; and the call neither reads nor writes the consumer index (its
outcome is unchanged under any alteration of that index). -/
theorem claim_C2_produce_step (α : Type) (r : core_ring α) (x : α)
    (hpos : 0 < r.size) :
    (valid_fn r r.producer = true → __core_ring_produce r x = (-ENOSPC, r)) ∧
    (valid_fn r r.producer = false →
      __core_ring_produce r x =
        (0, { r with slots := r.slots.set r.producer (some x),
                     producer := if r.producer + 1 ≥ r.size then 0
                                 else r.producer + 1 })) ∧
    (∀ c2 : Nat,
      __core_ring_produce { r with consumer := c2 } x =
        ((__core_ring_produce r x).1,
         { (__core_ring_produce r x).2 with consumer := c2 })) := by
  have hz : (r.size == 0) = false := by
    simp only [beq_eq_false_iff_ne, ne_eq]
    omega
  refine ⟨fun hv => ?_, fun hv => ?_, fun c2 => ?_⟩
  · have hcond : (r.size == 0 || valid_fn r r.producer) = true := by
      rw [hz, hv]
      rfl
    unfold __core_ring_produce
    rw [hcond]
    rfl
  · have hcond : (r.size == 0 || valid_fn r r.producer) = false := by
      rw [hz, hv]
      rfl
    unfold __core_ring_produce
    rw [hcond]
    rfl
  · unfold __core_ring_produce valid_fn
    dsimp only
    split <;> rfl

/-- Witness for C2's amended step at a concrete input: producing into an
empty capacity-2 ring stores the element and advances the producer. -/
theorem claim_C2_produce_step_witness :
    __core_ring_produce (⟨0, 0, 2, [none, none]⟩ : core_ring Nat) 5 =
      (0, ⟨1, 0, 2, [some 5, none]⟩) :=
  ((claim_C2_produce_step Nat ⟨0, 0, 2, [none, none]⟩ 5 (by decide)).2.1
    (by decide)).trans (by decide)

/-- C3.  Consume tests validity of the consumer-index slot: an invalid
slot yields nothing with the state unchanged, and keeps yielding nothing
on every subsequent call; a valid slot has its contents copied out and
returned, the slot zeroed, and the consumer index advanced by one,
wrapping to 0 at the capacity. -/
theorem claim_C3_consume_step (α : Type) (r : core_ring α) :
    (valid_fn r r.consumer = false →
      __core_ring_consume r = (none, r) ∧
      ∀ n, core_consume_n r n = (List.replicate n none, r)) ∧
    (valid_fn r r.consumer = true →
      __core_ring_consume r =
        (r.slots.getD r.consumer none,
         { r with slots := r.slots.set r.consumer none,
                  consumer := if r.consumer + 1 ≥ r.size then 0
                              else r.consumer + 1 })) := by
  refine ⟨fun hv => ⟨core_consume_invalid hv, core_consume_n_invalid hv⟩,
    fun hv => ?_⟩
  unfold __core_ring_consume __core_ring_discard_one
  rw [hv]
  rfl

/-- Witness for C3 at concrete inputs: an empty capacity-2 ring keeps
returning nothing; a ring holding 5 returns it, zeroes the slot, and
advances the consumer index. -/
theorem claim_C3_consume_step_witness :
    core_consume_n (⟨0, 0, 2, [none, none]⟩ : core_ring Nat) 3 =
      ([none, none, none], ⟨0, 0, 2, [none, none]⟩) ∧
    __core_ring_consume (⟨1, 0, 2, [some 5, none]⟩ : core_ring Nat) =
      (some 5, ⟨1, 1, 2, [none, none]⟩) :=
  ⟨(((claim_C3_consume_step Nat ⟨0, 0, 2, [none, none]⟩).1 (by decide)).2 3).trans
     (by decide),
   (((claim_C3_consume_step Nat ⟨1, 0, 2, [some 5, none]⟩).2 (by decide))).trans
     (by decide)⟩

/-- C4 counterexample.  A packet ring initialized with capacity 2 does
not accept 2 enqueues: the second already returns the failure code, so
"C consecutive enqueue calls on the empty ring all succeed" fails on the
`skb_ring` variant. -/
theorem claim_C4_counterexample :
    (skb_ring_queue ((skb_ring_init ⟨0, 0, [], 0⟩ 2
        (some [default, default])).2) ⟨3, false, 1⟩).1 = 0 ∧
    (skb_ring_queue (skb_ring_queue ((skb_ring_init ⟨0, 0, [], 0⟩ 2
        (some [default, default])).2) ⟨3, false, 1⟩).2 ⟨4, false, 2⟩).1 =
      -EFAULT := by
  decide

/-- C4 amended.  Full rejects without corrupting, with each variant's
own usable capacity: a generic ring of capacity C accepts C produces,
rejects the (C+1)-th with `-ENOSPC` leaving the state unchanged, and the
C residents remain retrievable in order; a packet ring of power-of-two
size C keeps one slot unused, so it accepts C-1 enqueues, rejects the
C-th with `-EFAULT` leaving the state unchanged, and the C-1 residents
remain retrievable in order. -/
theorem claim_C4_full_rejects :
    (∀ (α : Type) (cap : Nat) (es : List α) (x : α), es.length = cap →
      ∃ r2, core_produce_all (core_ring_init α cap).2 es = some r2 ∧
        __core_ring_produce r2 x = (-ENOSPC, r2) ∧
        (core_consume_n r2 es.length).1 = es.map some) ∧
    (∀ (k : Nat) (r0 : skb_ring) (d : List skb_desc) (es : List sk_buff)
      (x : sk_buff), k ≤ 64 → d.length = 2 ^ k → es.length = 2 ^ k - 1 →
      ∃ r2, skb_produce_all (skb_ring_init r0 (2 ^ k) (some d)).2 es = some r2 ∧
        skb_ring_queue r2 x = (-EFAULT, r2) ∧
        (skb_consume_n r2 es.length).1 = es.map some) := by
  constructor
  · intro α cap es x hlen
    obtain ⟨r2, hall, hreps⟩ := core_produce_all_ok es (core_ring_init α cap).2 []
      (core_init_reps α cap) (by simpa using Nat.le_of_eq hlen)
    rw [List.nil_append] at hreps
    have hsz : r2.size = cap := core_produce_all_size es _ r2 hall
    refine ⟨r2, hall, core_produce_full x hreps (by omega),
      (core_consume_n_reps es r2 hreps).1⟩
  · intro k r0 d es x hk hd hlen
    have hpos : 0 < (2 : Nat) ^ k := Nat.pos_pow_of_pos k (by norm_num)
    obtain ⟨r2, hall, hreps⟩ := skb_produce_all_ok es _ []
      (skb_init_reps hk r0 d hd) (by simp [skb_ring_init]; omega)
    rw [List.nil_append] at hreps
    have hsz : r2.size = 2 ^ k := hreps.2.1
    refine ⟨r2, hall, skb_queue_full x hreps (by omega),
      (skb_consume_n_reps es r2 hreps).1⟩

/-- Witness for C4's amended statement at concrete inputs: capacity 1
generic ring, and size-2 (`k = 1`) packet ring. -/
theorem claim_C4_full_rejects_witness :
    (∃ r2, core_produce_all (core_ring_init Nat 1).2 [5] = some r2 ∧
      __core_ring_produce r2 7 = (-ENOSPC, r2) ∧
      (core_consume_n r2 1).1 = [some 5]) ∧
    (∃ r2, skb_produce_all (skb_ring_init ⟨0, 0, [], 0⟩ (2 ^ 1)
        (some [default, default])).2 [⟨3, false, 1⟩] = some r2 ∧
      skb_ring_queue r2 ⟨4, false, 2⟩ = (-EFAULT, r2) ∧
      (skb_consume_n r2 1).1 = [some ⟨3, false, 1⟩]) := by
  constructor
  · have h := claim_C4_full_rejects.1 Nat 1 [5] 7 (by decide)
    simpa using h
  · have h := claim_C4_full_rejects.2 1 ⟨0, 0, [], 0⟩ [default, default]
      [⟨3, false, 1⟩] ⟨4, false, 2⟩ (by norm_num) (by decide) (by decide)
    simpa using h

/-- C5.  Count invariant on every reachable state, for positive capacity
(the spec's data model fixes the capacity as a positive integer, and as a
power of two for the packet ring): the logical count never exceeds the
capacity, both indices stay inside `[0, capacity)`, and the count is
congruent to producer minus consumer modulo the capacity, expressed as
`(consumer + count) % capacity = producer`. -/
theorem claim_C5_count_invariant :
    (∀ (α : Type) (cap : Nat) (ops : List (core_op α)), 0 < cap →
      core_count (core_run α cap ops) ≤ cap ∧
      (core_run α cap ops).producer < cap ∧
      (core_run α cap ops).consumer < cap ∧
      ((core_run α cap ops).consumer + core_count (core_run α cap ops)) % cap =
        (core_run α cap ops).producer) ∧
    (∀ (k : Nat) (r0 : skb_ring) (d : List skb_desc) (ops : List skb_op),
      k ≤ 64 → d.length = 2 ^ k →
      skb_ring_queue_len (skb_run_from (skb_ring_init r0 (2 ^ k) (some d)).2 ops)
        ≤ 2 ^ k ∧
      (skb_run_from (skb_ring_init r0 (2 ^ k) (some d)).2 ops).head < 2 ^ k ∧
      (skb_run_from (skb_ring_init r0 (2 ^ k) (some d)).2 ops).tail < 2 ^ k ∧
      ((skb_run_from (skb_ring_init r0 (2 ^ k) (some d)).2 ops).tail +
        skb_ring_queue_len (skb_run_from (skb_ring_init r0 (2 ^ k) (some d)).2 ops))
        % 2 ^ k =
        (skb_run_from (skb_ring_init r0 (2 ^ k) (some d)).2 ops).head) := by
  constructor
  · intro α cap ops hpos
    simp only [core_run]
    obtain ⟨q, hreps⟩ := core_run_from_reps ops (core_ring_init α cap).2 []
      (core_init_reps α cap)
    have hsz : (core_run_from (core_ring_init α cap).2 ops).size = cap :=
      core_run_from_size ops (core_ring_init α cap).2
    have hcount : core_count (core_run_from (core_ring_init α cap).2 ops) =
        q.length := core_reps_count q _ hreps
    obtain ⟨hlen2, hle, hz, hposf, hwin, hemp⟩ := hreps
    obtain ⟨hc, hp⟩ := hposf (by omega)
    refine ⟨by omega, ?_, by omega, ?_⟩
    · rw [hp, hsz]
      exact Nat.mod_lt _ hpos
    · rw [hcount, hp, hsz]
  · intro k r0 d ops hk hd
    obtain ⟨q, hreps⟩ := skb_run_from_reps ops _ [] (skb_init_reps hk r0 d hd)
    obtain ⟨hk2, hsz, hlen, ht, hql, hh, hwin⟩ := hreps
    have hcount : skb_ring_queue_len
        (skb_run_from (skb_ring_init r0 (2 ^ k) (some d)).2 ops) = q.length :=
      skb_queue_len_reps ⟨hk2, hsz, hlen, ht, hql, hh, hwin⟩
    have hpos : 0 < (2 : Nat) ^ k := Nat.pos_pow_of_pos k (by norm_num)
    refine ⟨by omega, by rw [hh, hsz]; exact Nat.mod_lt _ hpos, by omega, ?_⟩
    rw [hcount, hh, hsz]

/-- Witness for C5 at concrete runs: produce, produce, consume on a
capacity-2 generic ring, and produce then consume on a size-2 packet
ring. -/
theorem claim_C5_count_invariant_witness :
    (core_count (core_run Nat 2 [core_op.produce 5, core_op.produce 7,
        core_op.consume]) ≤ 2 ∧
      (core_run Nat 2 [core_op.produce 5, core_op.produce 7,
        core_op.consume]).producer < 2 ∧
      (core_run Nat 2 [core_op.produce 5, core_op.produce 7,
        core_op.consume]).consumer < 2 ∧
      ((core_run Nat 2 [core_op.produce 5, core_op.produce 7,
        core_op.consume]).consumer +
        core_count (core_run Nat 2 [core_op.produce 5, core_op.produce 7,
          core_op.consume])) % 2 =
        (core_run Nat 2 [core_op.produce 5, core_op.produce 7,
          core_op.consume]).producer) ∧
    (skb_ring_queue_len (skb_run_from (skb_ring_init ⟨0, 0, [], 0⟩ (2 ^ 1)
        (some [default, default])).2 [skb_op.produce ⟨3, false, 1⟩,
        skb_op.consume]) ≤ 2 ^ 1 ∧
      (skb_run_from (skb_ring_init ⟨0, 0, [], 0⟩ (2 ^ 1)
        (some [default, default])).2 [skb_op.produce ⟨3, false, 1⟩,
        skb_op.consume]).head < 2 ^ 1 ∧
      (skb_run_from (skb_ring_init ⟨0, 0, [], 0⟩ (2 ^ 1)
        (some [default, default])).2 [skb_op.produce ⟨3, false, 1⟩,
        skb_op.consume]).tail < 2 ^ 1 ∧
      ((skb_run_from (skb_ring_init ⟨0, 0, [], 0⟩ (2 ^ 1)
        (some [default, default])).2 [skb_op.produce ⟨3, false, 1⟩,
        skb_op.consume]).tail +
        skb_ring_queue_len (skb_run_from (skb_ring_init ⟨0, 0, [], 0⟩ (2 ^ 1)
          (some [default, default])).2 [skb_op.produce ⟨3, false, 1⟩,
          skb_op.consume])) % 2 ^ 1 =
        (skb_run_from (skb_ring_init ⟨0, 0, [], 0⟩ (2 ^ 1)
          (some [default, default])).2 [skb_op.produce ⟨3, false, 1⟩,
          skb_op.consume]).head) :=
  ⟨claim_C5_count_invariant.1 Nat 2
     [core_op.produce 5, core_op.produce 7, core_op.consume] (by decide),
   claim_C5_count_invariant.2 1 ⟨0, 0, [], 0⟩ [default, default]
     [skb_op.produce ⟨3, false, 1⟩, skb_op.consume] (by norm_num) (by decide)⟩

/-- C6.  Batched consume equivalence: on a ring holding the `k` elements
`q` with `k ≤ n`, `__core_ring_consume_batched r n` returns exactly `k`
elements, identical in content and order to those returned by `k`
sequential single consume calls, stops at the first empty test, and ends
in the very state the `k` single calls reach. -/
theorem claim_C6_batched_consume (α : Type) (r : core_ring α) (q : List α)
    (n : Nat) (h : core_reps r q) (hn : q.length ≤ n) :
    (__core_ring_consume_batched r n).1 = q ∧
    (__core_ring_consume_batched r n).1.length = q.length ∧
    (core_consume_n r q.length).1 = q.map some ∧
    (__core_ring_consume_batched r n).2 = (core_consume_n r q.length).2 := by
  obtain ⟨h1, h2⟩ := core_batched_eq q r n h hn
  exact ⟨h1, by rw [h1], (core_consume_n_reps q r h).1, h2⟩

/-- Witness for C6 at a concrete input: one resident element, batch
bound 3. -/
theorem claim_C6_batched_consume_witness :
    (__core_ring_consume_batched (⟨1, 0, 2, [some 5, none]⟩ : core_ring Nat) 3).1 =
      [5] ∧
    (__core_ring_consume_batched (⟨1, 0, 2, [some 5, none]⟩ : core_ring Nat) 3).1.length =
      1 ∧
    (core_consume_n (⟨1, 0, 2, [some 5, none]⟩ : core_ring Nat) 1).1 = [some 5] ∧
    (__core_ring_consume_batched (⟨1, 0, 2, [some 5, none]⟩ : core_ring Nat) 3).2 =
      (core_consume_n (⟨1, 0, 2, [some 5, none]⟩ : core_ring Nat) 1).2 :=
  claim_C6_batched_consume Nat ⟨1, 0, 2, [some 5, none]⟩ [5] 3
    core_reps_example (by decide)

/-- C7.  Length caching: `skb_ring_queue` stores, beside the payload, a
cached length equal to the payload's byte length plus `VLAN_HLEN` exactly
when a VLAN tag is present; `skb_ring_peek` returns the head (oldest)
slot's cached length whenever at least one element is resident, and 0
when none is, without touching the payload. -/
theorem claim_C7_len_cache (k : Nat) (r : skb_ring) (q : List sk_buff)
    (s : sk_buff) (h : skb_reps k r q) :
    (q.length + 1 < r.size →
      ((skb_ring_queue r s).2).descs.getD r.head default =
        { skb := s,
          len := s.len + (if skb_vlan_tag_present s then VLAN_HLEN else 0) }) ∧
    skb_ring_peek r = (match q with
      | [] => 0
      | s0 :: _ => s0.len + (if skb_vlan_tag_present s0 then VLAN_HLEN else 0)) := by
  constructor
  · intro hroom
    have hh : r.head = (r.tail + q.length) % r.size := h.2.2.2.2.2.1
    have hwin2 := (skb_queue_ok s h hroom).2.2.2.2.2.2.2
    have hget : (q ++ [s])[q.length]? = some s := List.getElem?_concat_length q s
    have hw := hwin2 q.length s hget
    rw [show ((skb_ring_queue r s).2).tail = r.tail from by
        unfold skb_ring_queue
        rw [if_pos (by
          have h1 := (skb_queue_ok s h hroom).1
          by_contra hno
          unfold skb_ring_queue at h1
          rw [if_neg hno] at h1
          simp [EFAULT] at h1)],
      show ((skb_ring_queue r s).2).size = r.size from by
        unfold skb_ring_queue
        dsimp only
        split <;> rfl] at hw
    rw [hh]
    exact hw
  · have hp := skb_peek_reps h
    rw [hp]
    match q with
    | [] => rfl
    | s0 :: q2 => rfl

/-- Witness for C7 at concrete inputs: enqueue of a VLAN-tagged payload
of length 100 caches 104; peek on a ring holding it returns 104. -/
theorem claim_C7_len_cache_witness :
    ((skb_ring_queue ⟨0, 2, [default, default], 0⟩ ⟨100, true, 7⟩).2).descs.getD 0
      default = ⟨⟨100, true, 7⟩, 104⟩ ∧
    skb_ring_peek ⟨0, 2, [⟨⟨100, true, 7⟩, 104⟩, default], 1⟩ = 104 :=
  ⟨((claim_C7_len_cache 1 ⟨0, 2, [default, default], 0⟩ [] ⟨100, true, 7⟩
      skb_reps_example0).1 (by decide)).trans (by decide),
   ((claim_C7_len_cache 1 ⟨0, 2, [⟨⟨100, true, 7⟩, 104⟩, default], 1⟩
      [⟨100, true, 7⟩] ⟨100, true, 7⟩ skb_reps_example).2).trans (by decide)⟩

/-- C8.  The purge loop evaluates its condition and body on local
copies of `head` and `tail` that are never updated, so on a ring holding
one payload the loop exits for no amount of fuel and passes that same
payload to `kfree_skb` once per iteration — it neither terminates nor
frees each resident exactly once, double-freeing instead.  Shown on a
size-2 ring holding the single payload `⟨3, false, 9⟩`. -/
theorem claim_C8_purge_diverges (fuel : Nat) :
    (skb_ring_purge ⟨0, 2, [⟨⟨3, false, 9⟩, 3⟩, default], 1⟩ fuel).2.2 = false ∧
    (skb_ring_purge ⟨0, 2, [⟨⟨3, false, 9⟩, 3⟩, default], 1⟩ fuel).1 =
      List.replicate fuel ⟨3, false, 9⟩ := by
  have h : CIRC_CNT 1 0 2 ≥ 1 := by decide
  have hloop := @skb_purge_loop_stuck 1 0 2 [⟨⟨3, false, 9⟩, 3⟩, default]
    h fuel 0
  unfold skb_ring_purge
  dsimp only
  rw [hloop]
  exact ⟨rfl, rfl⟩

/-- C9 counterexample.  Zero capacity is not rejected: both
initializers accept it and report success, so no `InvalidArgument`
failure exists in the code. -/
theorem claim_C9_counterexample :
    (core_ring_init Nat 0).1 = 0 ∧
    (skb_ring_init ⟨0, 0, [], 0⟩ 0 (some [])).1 = 0 := by
  decide

/-- C9 amended.  Initialization error taxonomy as implemented: the
packet-ring initializer fails with `-ENOMEM` exactly when the storage
allocation fails, and otherwise records the storage, the (unvalidated)
capacity, and zeroed indices; the generic initializer performs no
allocation and no validation, always succeeding with zeroed indices.
Neither rejects a zero capacity. -/
theorem claim_C9_err_taxonomy :
    (∀ (r0 : skb_ring) (size : Nat) (d : List skb_desc),
      skb_ring_init r0 size (some d) =
        (0, { r0 with head := 0, tail := 0, descs := d, size := size }) ∧
      skb_ring_init r0 size none =
        (-ENOMEM, { r0 with head := 0, tail := 0 })) ∧
    (∀ (α : Type) (size : Nat),
      core_ring_init α size =
        (0, { producer := 0, consumer := 0, size := size,
              slots := List.replicate size none })) :=
  ⟨fun _ _ _ => ⟨rfl, rfl⟩, fun _ _ => rfl⟩

/-- C10.  Zero-capacity produce is total: on a ring whose size is 0 —
a state `core_ring_init` permits — `__core_ring_produce` returns
`-ENOSPC` immediately with the state unchanged, and its outcome does not
depend on the slot storage at all (the short-circuited size test fires
before the validity, seek, and copy callbacks). -/
theorem claim_C10_zero_capacity (α : Type) (r : core_ring α) (x : α)
    (h : r.size = 0) :
    __core_ring_produce r x = (-ENOSPC, r) ∧
    ∀ slots2 : List (Option α),
      __core_ring_produce { r with slots := slots2 } x =
        (-ENOSPC, { r with slots := slots2 }) := by
  have hgen : ∀ r2 : core_ring α, r2.size = 0 →
      __core_ring_produce r2 x = (-ENOSPC, r2) := by
    intro r2 h2
    have hcond : (r2.size == 0 || valid_fn r2 r2.producer) = true := by
      simp [h2]
    unfold __core_ring_produce
    rw [hcond]
    rfl
  exact ⟨hgen r h, fun slots2 => hgen _ h⟩

/-- Witness for C10 at concrete inputs: a zero-size ring with empty
storage and one with stale storage both reject immediately. -/
theorem claim_C10_zero_capacity_witness :
    __core_ring_produce (⟨0, 0, 0, []⟩ : core_ring Nat) 5 =
      (-ENOSPC, ⟨0, 0, 0, []⟩) ∧
    __core_ring_produce (⟨0, 0, 0, [some 9]⟩ : core_ring Nat) 5 =
      (-ENOSPC, ⟨0, 0, 0, [some 9]⟩) :=
  ⟨(claim_C10_zero_capacity Nat ⟨0, 0, 0, []⟩ 5 rfl).1,
   (claim_C10_zero_capacity Nat ⟨0, 0, 0, []⟩ 5 rfl).2 [some 9]⟩
